import Mathlib

/-!
Verification of the archive-extraction examples of this repository
(`examples/rs-zip-index/src/main.rs`, `examples/file_muti_extraction.rs`)
against their natural-language specification.

The development shallowly embeds the two example programs:

* the path sanitizer `sanitize_file_path`, whose per-segment rule is the
  external `sanitize_filename` crate;
* the extraction coordinator `unzip_file` / per-entry task `write_entity`,
  over an explicit filesystem state `FS` (a set of directory paths and a
  finite map from file paths to byte lists), with entry tasks serialized in
  an arbitrary completion order (a permutation of the entry indices).

Paths are modelled as lists of components (`List String`); machine strings
are Lean `String`s; bytes are `Nat`s.
-/

/- ## Part 1: the path sanitizer

Source (identical in both examples):
```rust
fn sanitize_file_path(path: &str) -> PathBuf {
    path.replace('\\', "/")        // Replaces backwards slashes
        .split('/')                // Sanitizes each component
        .map(sanitize_filename::sanitize)
        .collect()
}
```
-/

/-- Canonicalization of a single character done by `path.replace('\\', "/")`. -/
def sepCanon (c : Char) : Char := if c = '\\' then '/' else c

/-- Models `path.replace('\\', "/")`: the pattern is a single character, so the
replacement is a per-character map. -/
def replaceBackslash (s : String) : String := ⟨s.data.map sepCanon⟩

/-- Models `str::split('/')` on the underlying character list: the list of
segments between slashes (an empty input gives one empty segment, a leading,
trailing or doubled slash gives empty segments, exactly as in Rust). -/
def splitSlash : List Char → List (List Char)
  | [] => [[]]
  | c :: cs =>
    if c = '/' then [] :: splitSlash cs
    else
      match splitSlash cs with
      | [] => [[c]]
      | a :: rest => (c :: a) :: rest

/-- Characters removed by the per-segment rule as illegal in filenames. -/
def illegalChar (c : Char) : Bool :=
  c = '/' || c = '?' || c = '<' || c = '>' || c = '\\' || c = ':' ||
  c = '*' || c = '|' || c = '\"'

/-- Control characters removed by the per-segment rule. -/
def controlChar (c : Char) : Bool :=
  c.val ≤ 0x1f || (0x80 ≤ c.val && c.val ≤ 0x9f)

/-- A character survives the per-segment rule iff it is neither illegal nor a
control character. -/
def keepChar (c : Char) : Bool := !illegalChar c && !controlChar c

/-- Longest prefix of a character list whose total UTF-8 byte length does not
exceed `n` (the 255-byte truncation of the per-segment rule). -/
def truncBytes : List Char → Nat → List Char
  | [], _ => []
  | c :: cs, n => if c.utf8Size ≤ n then c :: truncBytes cs (n - c.utf8Size) else []

/-- Characters of a segment kept after removing illegal and control characters. -/
def sanitizeKept (s : String) : List Char := s.data.filter keepChar

/-- The reserved-name pass: a segment that, after character removal, is non-empty
and consists solely of dots (so in particular `.` and `..`) is mapped to the
empty segment. -/
def sanitizeReserved (s : String) : List Char :=
  let kept := sanitizeKept s
  if !kept.isEmpty && kept.all (fun c => c == '.') then [] else kept

/-- Modelled from the spec: the per-segment sanitization rule of spec section 4.1
step 3, which the source delegates to the external `sanitize_filename` crate (code
outside this repository). Following that crate's algorithm with default options on
a non-Windows host: remove characters illegal in filenames and control characters,
map a segment consisting solely of dots (such as `.` and `..`) to the empty
segment, and truncate the result to 255 bytes. -/
def sanitize (s : String) : String := ⟨truncBytes (sanitizeReserved s) 255⟩

/-- The sanitized form of every raw segment of the entry name, in order
(before collecting into a `PathBuf`). -/
def sanitizeSegments (path : String) : List String :=
  (splitSlash (replaceBackslash path).data).map (fun seg => sanitize ⟨seg⟩)

/-- Models `sanitize_file_path` viewed as the component list of the collected
`PathBuf`: pushing an empty segment onto a `PathBuf` contributes no component,
so exactly the non-empty sanitized segments remain, in order. -/
def sanitize_file_path (path : String) : List String :=
  (sanitizeSegments path).filter (fun s => s ≠ "")

/-- Whether the collected `PathBuf` (and hence the joined target path) ends in a
path separator: this happens exactly when the final raw segment sanitizes to the
empty segment (`PathBuf::push("")` appends a separator to a non-empty buffer, and
joining an entirely-empty `PathBuf` under the output root does the same). -/
def lastSegEmpty (path : String) : Bool :=
  (sanitizeSegments path).getLast? == some ""

/-- Lexical resolution of a relative segment list under a root: `.` is skipped,
`..` removes the last component, anything else descends. Used to state that
joining a sanitized path under the output root stays underneath the root. -/
def lexicalJoin (root : List String) (segs : List String) : List String :=
  segs.foldl
    (fun acc seg =>
      if seg = "." then acc
      else if seg = ".." then acc.dropLast
      else acc ++ [seg])
    root

/- ## Part 2: the extraction coordinator

Source (`examples/rs-zip-index/src/main.rs`):
```rust
async fn unzip_file(archive: &Path, out_dir: String) {
    ...
    let share_dir = Arc::new(out_dir);
    let reader = ZipFileReader::new(archive).await.expect("Failed to read zip file");
    let share_reader = Arc::new(reader);
    for i in 0..share_reader.file().entries().len() {
        handles.push(tokio::spawn(write_entity(i, share_dir.clone(), share_reader.clone())));
    }
    futures::future::join_all(handles).await;
    ...
}
```
The archive is treated as a read-only entry catalog: each entry exposes a
filename (assumed valid UTF-8: `filename().as_str().unwrap()`) and the bytes its
content stream drains to. `entry.dir().unwrap()` is, in the `async_zip` crate,
the test that the filename ends with a slash. Task-level failures
(`reader_without_entry`, the stream copy) are injected through a `FaultModel`;
filesystem failures arise from the filesystem state itself. -/

/-- Models `str::ends_with('/')` on the underlying character list (the pattern
is a single character, so this is a test on the last character). In the
`async_zip` crate `entry.dir()` is exactly this test on the entry's filename. -/
def endsWithSlash (s : String) : Bool := s.data.getLast? == some '/'

/-- An archive catalog entry: its raw name and the bytes of its content stream. -/
structure Entry where
  filename : String
  content : List Nat
deriving DecidableEq

instance : Inhabited Entry := ⟨⟨"", []⟩⟩

/-- Injected task-level I/O outcomes: whether `reader_without_entry(i)` succeeds
and whether the stream copy for entry `i` succeeds. -/
structure FaultModel where
  readerOk : Nat → Bool
  copyOk : Nat → Bool

/-- The fault-free model: every reader acquisition and every copy succeeds. -/
def allOk : FaultModel := ⟨fun _ => true, fun _ => true⟩

/-- A model in which obtaining any entry's content stream fails. -/
def readerFail : FaultModel := ⟨fun _ => false, fun _ => true⟩

/-- The filesystem under the extraction run: the set of existing directory
paths and a map from file paths to the byte contents of the regular file there,
if any. Paths are lists of components; the empty list is the empty path (never
a directory or file). -/
structure FS where
  dirs : List String → Bool
  files : List String → Option (List Nat)

/-- The initially empty filesystem. -/
def FS.empty : FS := ⟨fun _ => false, fun _ => none⟩

/-- Whether a regular file exists at `p`. -/
def FS.isFile (fs : FS) (p : List String) : Bool := (fs.files p).isSome

/-- Create or replace the regular file at `p` with contents `b`. -/
def FS.setFile (fs : FS) (p : List String) (b : List Nat) : FS :=
  { fs with files := fun q => if q = p then some b else fs.files q }

/-- The non-empty ancestors of a path, shortest first, ending with the path
itself. -/
def nonemptyPrefixes (p : List String) : List (List String) :=
  (List.range p.length).map (fun k => p.take (k + 1))

/-- Models `tokio::fs::create_dir_all(p)`: it succeeds iff no ancestor of `p`
(including `p` itself) is an existing regular file, making every non-empty
ancestor a directory; `create_dir_all("")` succeeds creating nothing (the
standard library special-cases the empty path). Failure is modelled atomically;
the real call may leave some shorter ancestors created before the failing one,
a difference no claim here observes. -/
def FS.createDirAll (fs : FS) (p : List String) : Bool × FS :=
  if (nonemptyPrefixes p).all (fun q => !fs.isFile q) then
    (true, { fs with dirs := fun q => fs.dirs q || (nonemptyPrefixes p).contains q })
  else (false, fs)

/-- Models `Path::exists` on the joined target path: a target path ending in a
separator (see `lastSegEmpty`) only exists as a directory; otherwise an existing
regular file counts as well. -/
def FS.existsPath (fs : FS) (p : List String) (trailing : Bool) : Bool :=
  fs.dirs p || (!trailing && fs.isFile p)

/-- Outcome of one entry's task: completed, or panicked with the message of the
`expect` that failed (a task panic is caught by the runtime and stored in the
task's join handle; it does not abort sibling tasks). -/
inductive EntryOutcome where
  | ok : EntryOutcome
  | panicked : String → EntryOutcome
deriving DecidableEq

/- Model of the per-entry task `write_entity` of `examples/rs-zip-index/src/main.rs`
acting on filesystem `fs`:

1. `entries.get(index).unwrap()`;
2. `path = out_dir.join(sanitize_file_path(entry.filename()))`;
3. `entry.dir().unwrap()` — the filename ends with `/` (`endsWithSlash`);
4. `reader_without_entry(index).expect(...)` — before the directory/file branch;
5. directory entry: `if !path.exists() { create_dir_all(path).expect(...) }`;
6. file entry: `path.parent().expect(...)` (`None` only for the empty path);
   `if !parent.is_dir() { create_dir_all(parent).expect(...) }`;
   `OpenOptions::new().write(true).create(true).open(path).expect(...)` — creates
   the file if absent but does **not** truncate an existing one; opening fails if
   the path ends in a separator or an existing directory occupies it;
7. `copy(entry_reader, writer).expect(...)` — overwrites the first
   `content.length` bytes, leaving any longer tail of a pre-existing file.

The directory-entry branch (step 5) is `dirTask`, the file-entry branch
(steps 6 and 7) is `fileTask`, and `write_entity` is the task itself. -/

/-- The directory-entry branch of `write_entity` (step 5 of its description). -/
def dirTask (fs : FS) (full : List String) (trailing : Bool) : EntryOutcome × FS :=
  if fs.existsPath full trailing = true then (.ok, fs)
  else if (fs.createDirAll full).1 = true then (.ok, (fs.createDirAll full).2)
  else (.panicked "Failed to create extracted directory", (fs.createDirAll full).2)

/-- The `if !parent.is_dir() { create_dir_all(parent) }` preamble of the
file-entry branch: whether it succeeded, and the filesystem afterwards. -/
def ensureParent (fs : FS) (full : List String) : Bool × FS :=
  if fs.dirs full.dropLast = true then (true, fs) else fs.createDirAll full.dropLast

/-- The file-entry branch of `write_entity` (steps 6 and 7 of its description). -/
def fileTask (copyOk : Bool) (content : List Nat) (fs : FS) (full : List String)
    (trailing : Bool) : EntryOutcome × FS :=
  if full = [] then (.panicked "A file entry should have parent directories", fs)
  else if (ensureParent fs full).1 = false then
    (.panicked "Failed to create parent directories", (ensureParent fs full).2)
  else if trailing = true ∨ (ensureParent fs full).2.dirs full = true then
    (.panicked "Failed to create extracted file", (ensureParent fs full).2)
  else if copyOk = true then
    (.ok, (ensureParent fs full).2.setFile full
      (content ++ (((ensureParent fs full).2.files full).getD []).drop content.length))
  else
    (.panicked "Failed to copy to extracted file",
      (ensureParent fs full).2.setFile full (((ensureParent fs full).2.files full).getD []))

/-- The per-entry task (steps 1 to 4 of the description above, dispatching to
`dirTask` or `fileTask`). -/
def write_entity (fm : FaultModel) (entries : List Entry) (outDir : List String)
    (index : Nat) (fs : FS) : EntryOutcome × FS :=
  match entries.get? index with
  | none => (.panicked "no entry at this index", fs)
  | some entry =>
    if fm.readerOk index = false then
      (.panicked "Failed to read ZipEntry", fs)
    else if endsWithSlash entry.filename = true then
      dirTask fs (outDir ++ sanitize_file_path entry.filename)
        (lastSegEmpty entry.filename)
    else
      fileTask (fm.copyOk index) entry.content fs
        (outDir ++ sanitize_file_path entry.filename) (lastSegEmpty entry.filename)

/-- What `unzip_file` produces, seen from its caller plus the task ledger:
`spawned` tasks were dispatched (one per entry index), `outcomes` records each
completed task's index and outcome in completion order (`join_all` has collected
them all by the time the function returns), `fs` is the final filesystem, and
`ret` is the value the Rust function actually returns to its caller — `()`,
the join results being discarded. -/
structure ExtractResult where
  spawned : Nat
  outcomes : List (Nat × EntryOutcome)
  fs : FS
  ret : Unit

/-- Models `unzip_file`: one task is spawned per entry index `0..entries.len()`;
the tasks' effects are serialized in the completion order `order` (an arbitrary
permutation of the indices, modelling concurrent completion at task
granularity); the coordinator returns only after `join_all` has an outcome for
every task, and discards those outcomes. `taskStep` is one completion: it runs
the task of index `i` on the current filesystem and appends its outcome to the
ledger. -/
def taskStep (fm : FaultModel) (entries : List Entry) (outDir : List String)
    (acc : List (Nat × EntryOutcome) × FS) (i : Nat) :
    List (Nat × EntryOutcome) × FS :=
  (acc.1 ++ [(i, (write_entity fm entries outDir i acc.2).1)],
   (write_entity fm entries outDir i acc.2).2)

/-- The coordinator `unzip_file` (see the comment on `taskStep`). -/
def unzip_file (fm : FaultModel) (entries : List Entry) (outDir : List String)
    (order : List Nat) (fs0 : FS) : ExtractResult :=
  { spawned := entries.length,
    outcomes := (order.foldl (taskStep fm entries outDir) ([], fs0)).1,
    fs := (order.foldl (taskStep fm entries outDir) ([], fs0)).2,
    ret := () }

/-- The filesystem effect of one entry's task, with the outcome projected away. -/
def stepFS (fm : FaultModel) (entries : List Entry) (outDir : List String)
    (fs : FS) (i : Nat) : FS :=
  (write_entity fm entries outDir i fs).2

/-- Target-path computation of `write_entity` in
`examples/rs-zip-index/src/main.rs` (lines 71-76): the sanitized name is joined
under the output root passed to the task at spawn time (a shared `Arc<String>`
fixed for the run); the ambient working directory `cwd` plays no role. -/
def write_entity_index_target (cwd : List String) (out_dir : List String)
    (filename : String) : List String :=
  out_dir ++ sanitize_file_path filename

/-- Target-path computation of `write_entity` in
`examples/file_muti_extraction.rs` (lines 55-60): the task's `out_dir` parameter
is immediately shadowed by `current_dir().expect(...)`, so the sanitized name is
joined under the ambient current working directory of the process and the passed
output root is ignored. -/
def write_entity_muti_target (cwd : List String) (out_dir : List String)
    (filename : String) : List String :=
  cwd ++ sanitize_file_path filename

/- ## Part 3: the canonical final filesystem of a separated catalog -/

/-- The entry at index `i` (the default placeholder entry when out of range). -/
def entryAt (entries : List Entry) (i : Nat) : Entry := (entries.get? i).getD default

/-- The target path of entry `i` under the output root. -/
def fullOf (entries : List Entry) (outDir : List String) (i : Nat) : List String :=
  outDir ++ sanitize_file_path (entryAt entries i).filename

/-- Whether entry `i` is a directory entry (its filename ends with a slash). -/
def isDirAt (entries : List Entry) (i : Nat) : Bool :=
  endsWithSlash (entryAt entries i).filename

/-- Whether entry `i`'s joined target path ends in a separator. -/
def trailingAt (entries : List Entry) (i : Nat) : Bool :=
  lastSegEmpty (entryAt entries i).filename

/-- The deepest directory entry `i`'s task is responsible for: its target
(directory entry) or its target's parent (file entry). -/
def baseOf (entries : List Entry) (outDir : List String) (i : Nat) : List String :=
  if isDirAt entries i then fullOf entries outDir i
  else (fullOf entries outDir i).dropLast

/-- The directories entry `i`'s task is responsible for: the non-empty
ancestors of its base directory. -/
def chainOf (entries : List Entry) (outDir : List String) (i : Nat) :
    List (List String) :=
  nonemptyPrefixes (baseOf entries outDir i)

/-- Whether entry `i`'s task writes a file: a file entry with a non-empty target
path not ending in a separator. -/
def writesAt (entries : List Entry) (outDir : List String) (i : Nat) : Bool :=
  !isDirAt entries i && !(fullOf entries outDir i).isEmpty && !trailingAt entries i

/-- The directories present after the entries listed in `S` have been processed
on an initially empty filesystem: the paths on some processed entry's chain.
Depends on `S` only through membership. -/
def canonDirs (entries : List Entry) (outDir : List String) (S : List Nat) :
    List String → Bool :=
  fun q => S.any (fun i => (chainOf entries outDir i).contains q)

/-- The files present after the entries listed in `S` have been processed on an
initially empty filesystem: at `q`, the content of the (under `SepTargets`
unique) file-writing processed entry whose target is `q`. Depends on `S` only
through membership. -/
def canonFiles (entries : List Entry) (outDir : List String) (S : List Nat) :
    List String → Option (List Nat) :=
  fun q =>
    ((List.range entries.length).find? (fun i =>
        S.contains i && writesAt entries outDir i &&
        decide (fullOf entries outDir i = q))).map
      (fun i => (entryAt entries i).content)

/-- The canonical filesystem state after processing the entries listed in `S`
on an initially empty filesystem. -/
def canonFS (entries : List Entry) (outDir : List String) (S : List Nat) : FS :=
  ⟨canonDirs entries outDir S, canonFiles entries outDir S⟩

/-- Separation of a catalog under an output root: no file entry's non-empty
target path is a prefix of (in particular, equal to) another entry's target
path. Rules out entries whose extracted file would collide with, or sit on the
directory chain of, another entry's extraction. -/
def SepTargets (entries : List Entry) (outDir : List String) : Prop :=
  ∀ i ∈ List.range entries.length, ∀ j ∈ List.range entries.length,
    i ≠ j → isDirAt entries i = false → fullOf entries outDir i ≠ [] →
    (fullOf entries outDir i).isPrefixOf (fullOf entries outDir j) = false

instance (entries : List Entry) (outDir : List String) :
    Decidable (SepTargets entries outDir) := by
  unfold SepTargets; exact inferInstance

/- ## Lemmas about the sanitizer -/

/-- Truncation returns a subset of its input characters. -/
theorem truncBytes_subset {l : List Char} {n : Nat} : ∀ c ∈ truncBytes l n, c ∈ l := by
  induction l generalizing n with
  | nil => intro c hc; simp [truncBytes] at hc
  | cons a as ih =>
    intro c hc
    simp only [truncBytes] at hc
    by_cases h : a.utf8Size ≤ n
    · rw [if_pos h] at hc
      rcases List.mem_cons.mp hc with h1 | h2
      · exact h1 ▸ List.mem_cons_self _ _
      · exact List.mem_cons_of_mem _ (ih _ h2)
    · rw [if_neg h] at hc; cases hc

/-- Total UTF-8 byte length of a character list. -/
def byteLen (l : List Char) : Nat := l.foldr (fun c a => c.utf8Size + a) 0

/-- If what truncation keeps is more than four bytes short of the budget, nothing
was cut: the input equals the output. -/
theorem truncBytes_small : ∀ (l : List Char) (n : Nat),
    byteLen (truncBytes l n) + 4 ≤ n → truncBytes l n = l := by
  intro l
  induction l with
  | nil => intro n _; rfl
  | cons c cs ih =>
    intro n h
    have hle : c.utf8Size ≤ 4 := Char.utf8Size_le_four c
    by_cases hc : c.utf8Size ≤ n
    · simp only [truncBytes, if_pos hc] at h ⊢
      have hh : byteLen (c :: truncBytes cs (n - c.utf8Size)) =
          c.utf8Size + byteLen (truncBytes cs (n - c.utf8Size)) := rfl
      rw [hh] at h
      have : byteLen (truncBytes cs (n - c.utf8Size)) + 4 ≤ n - c.utf8Size := by omega
      rw [ih _ this]
    · exfalso
      simp only [truncBytes, if_neg hc, byteLen, List.foldr] at h
      omega

/-- With a budget of at least four bytes, truncation returns the empty list only
on the empty list. -/
theorem truncBytes_nil_iff {l : List Char} {n : Nat} (h4 : 4 ≤ n) :
    truncBytes l n = [] ↔ l = [] := by
  cases l with
  | nil => simp [truncBytes]
  | cons c cs =>
    have hle : c.utf8Size ≤ 4 := Char.utf8Size_le_four c
    simp [truncBytes, if_pos (show c.utf8Size ≤ n by omega)]

/-- The per-segment rule never outputs the segment `.` or the segment `..`. -/
theorem sanitize_ne_dots (s : String) : sanitize s ≠ "." ∧ sanitize s ≠ ".." := by
  have key : ∀ r : List Char, r = ['.'] ∨ r = ['.', '.'] →
      truncBytes (sanitizeReserved s) 255 ≠ r := by
    intro r hr heq
    have hlen : byteLen r + 4 ≤ 255 := by rcases hr with h | h <;> subst h <;> decide
    have hall : truncBytes (sanitizeReserved s) 255 = sanitizeReserved s :=
      truncBytes_small _ _ (by rw [heq]; exact hlen)
    have hres : sanitizeReserved s = r := by rw [← hall, heq]
    unfold sanitizeReserved at hres
    by_cases hcond : (!(sanitizeKept s).isEmpty && (sanitizeKept s).all (fun c => c == '.')) = true
    · rw [if_pos hcond] at hres
      rcases hr with h | h <;> subst h <;> exact absurd hres.symm (by decide)
    · rw [if_neg hcond] at hres
      apply hcond
      rw [hres]
      rcases hr with h | h <;> subst h <;> decide
  constructor
  · intro h
    exact key ['.'] (Or.inl rfl) (congrArg String.data h)
  · intro h
    exact key ['.', '.'] (Or.inr rfl) (congrArg String.data h)

/-- Every character of a sanitized segment survived the character filter; in
particular no separator character remains. -/
theorem sanitize_chars (s : String) : ∀ c ∈ (sanitize s).data, keepChar c = true := by
  intro c hc
  have h1 : c ∈ sanitizeReserved s := truncBytes_subset c hc
  have h2 : c ∈ sanitizeKept s := by
    unfold sanitizeReserved at h1
    by_cases hcond : (!(sanitizeKept s).isEmpty && (sanitizeKept s).all (fun c => c == '.')) = true
    · rw [if_pos hcond] at h1; cases h1
    · rwa [if_neg hcond] at h1
  exact (List.mem_filter.mp h2).2

/-- With no `.`/`..` segment, lexical resolution under a root is a plain append. -/
theorem lexicalJoin_no_dots : ∀ (l : List String) (root : List String),
    (∀ seg ∈ l, seg ≠ "." ∧ seg ≠ "..") → lexicalJoin root l = root ++ l := by
  intro l
  induction l with
  | nil => intro root _; simp [lexicalJoin]
  | cons a l ih =>
    intro root h
    have ha := h a (List.mem_cons_self _ _)
    have step : lexicalJoin root (a :: l) = lexicalJoin (root ++ [a]) l := by
      simp only [lexicalJoin, List.foldl, if_neg ha.1, if_neg ha.2]
    rw [step, ih (root ++ [a]) (fun seg hs => h seg (List.mem_cons_of_mem _ hs))]
    simp

/- ## Claim theorems for the sanitizer (C1, C5, C8) -/

/-- C1: for every input string, `sanitize_file_path` yields a relative path in
which every segment is non-empty, no segment equals `.` or `..`, no segment
contains a path separator, and joining that path under any output root lexically
resolves to a location underneath (an extension of) the output root. -/
theorem sanitize_file_path_safe_under_root (s : String) (root : List String) :
    (∀ seg ∈ sanitize_file_path s,
        seg ≠ "" ∧ seg ≠ "." ∧ seg ≠ ".." ∧ ∀ c ∈ seg.data, c ≠ '/' ∧ c ≠ '\\') ∧
    lexicalJoin root (sanitize_file_path s) = root ++ sanitize_file_path s ∧
    ∃ below, lexicalJoin root (sanitize_file_path s) = root ++ below := by
  have hseg : ∀ seg ∈ sanitize_file_path s,
      seg ≠ "" ∧ seg ≠ "." ∧ seg ≠ ".." ∧ ∀ c ∈ seg.data, c ≠ '/' ∧ c ≠ '\\' := by
    intro seg hs
    have hmem := List.mem_filter.mp hs
    have hne : seg ≠ "" := by
      have := hmem.2
      simpa using this
    obtain ⟨raw, _, hraw⟩ := List.mem_map.mp hmem.1
    subst hraw
    refine ⟨hne, (sanitize_ne_dots _).1, (sanitize_ne_dots _).2, ?_⟩
    intro c hc
    have hk := sanitize_chars _ c hc
    constructor
    · intro h; subst h; simp [keepChar, illegalChar] at hk
    · intro h; subst h; simp [keepChar, illegalChar] at hk
  refine ⟨hseg, ?_, ?_⟩
  · exact lexicalJoin_no_dots _ root (fun seg h => ⟨(hseg seg h).2.1, (hseg seg h).2.2.1⟩)
  · exact ⟨sanitize_file_path s,
      lexicalJoin_no_dots _ root (fun seg h => ⟨(hseg seg h).2.1, (hseg seg h).2.2.1⟩)⟩

/-- C5 counterexample: the non-empty segment `.` sanitizes to the empty segment,
so it is dropped from the sanitized path even though it was not empty in the
input (here `a/./b` sanitizes to the two components `a`, `b`). -/
theorem sanitize_drops_nonempty_dot_cex :
    sanitize "." = "" ∧ ("." : String) ≠ "" ∧ sanitize_file_path "a/./b" = ["a", "b"] := by
  decide

/-- C5 (amended): the per-segment rule maps a segment to the empty segment (and
the segment is hence dropped from the sanitized path) exactly when the segment's
characters, after removing illegal and control characters, are all dots — this
covers empty input segments, but also the non-empty segments `.`, `..`, any
other all-dot segment, and segments made solely of removed characters. -/
theorem sanitize_empty_iff_all_dots (s : String) :
    sanitize s = "" ↔ (s.data.filter keepChar).all (fun c => c == '.') = true := by
  unfold sanitize
  constructor
  · intro h
    have h0 : truncBytes (sanitizeReserved s) 255 = [] := congrArg String.data h
    have h1 : sanitizeReserved s = [] := (truncBytes_nil_iff (by omega)).mp h0
    unfold sanitizeReserved at h1
    by_cases hcond : (!(sanitizeKept s).isEmpty && (sanitizeKept s).all (fun c => c == '.')) = true
    · exact (Bool.and_eq_true _ _ ▸ hcond).2
    · rw [if_neg hcond] at h1
      unfold sanitizeKept at h1
      rw [h1]
      rfl
  · intro h
    have : sanitizeReserved s = [] := by
      unfold sanitizeReserved
      by_cases he : (sanitizeKept s).isEmpty = true
      · rw [if_neg]
        · exact List.isEmpty_iff.mp he
        · simp [he]
      · rw [if_pos]
        simp only [Bool.and_eq_true, Bool.not_eq_true']
        exact ⟨by simpa using he, h⟩
    rw [this]
    rfl

/-- C8: two input strings that agree after canonicalizing backslashes to forward
slashes (in particular, a backslash-separated and the corresponding
slash-separated name) produce the same sanitized path. -/
theorem sanitize_file_path_separator_normalization (s t : String)
    (h : s.data.map sepCanon = t.data.map sepCanon) :
    sanitize_file_path s = sanitize_file_path t := by
  have hrep : replaceBackslash s = replaceBackslash t := congrArg String.mk h
  unfold sanitize_file_path sanitizeSegments
  rw [hrep]

/-- Witness for C8 at the spec's own example pair. -/
theorem sanitize_file_path_separator_normalization_witness :
    ("a\\b\\c" : String).data.map sepCanon = ("a/b/c" : String).data.map sepCanon ∧
    sanitize_file_path "a\\b\\c" = sanitize_file_path "a/b/c" :=
  ⟨by decide, sanitize_file_path_separator_normalization _ _ (by decide)⟩

/- ## Lemmas about the coordinator -/

/-- Directory creation never changes the file map. -/
theorem createDirAll_files (fs : FS) (p : List String) :
    (fs.createDirAll p).2.files = fs.files := by
  unfold FS.createDirAll
  split <;> rfl

/-- The parent-directory preamble never changes the file map. -/
theorem ensureParent_files (fs : FS) (full : List String) :
    (ensureParent fs full).2.files = fs.files := by
  unfold ensureParent
  split
  · rfl
  · exact createDirAll_files fs full.dropLast

/-- Folding completions accumulates exactly the completed indices, in order. -/
theorem taskStep_foldl_fst (fm : FaultModel) (entries : List Entry)
    (outDir : List String) :
    ∀ (l : List Nat) (acc : List (Nat × EntryOutcome)) (fs : FS),
      ((l.foldl (taskStep fm entries outDir) (acc, fs)).1).map Prod.fst
        = acc.map Prod.fst ++ l := by
  intro l
  induction l with
  | nil => intro acc fs; simp
  | cons i l ih =>
    intro acc fs
    rw [List.foldl_cons,
      show taskStep fm entries outDir (acc, fs) i
        = (acc ++ [(i, (write_entity fm entries outDir i fs).1)],
           (write_entity fm entries outDir i fs).2) from rfl,
      ih]
    simp

/-- The filesystem part of folding completions is the fold of the per-task
filesystem effects. -/
theorem taskStep_foldl_snd (fm : FaultModel) (entries : List Entry)
    (outDir : List String) :
    ∀ (l : List Nat) (acc : List (Nat × EntryOutcome)) (fs : FS),
      (l.foldl (taskStep fm entries outDir) (acc, fs)).2
        = l.foldl (stepFS fm entries outDir) fs := by
  intro l
  induction l with
  | nil => intro acc fs; rfl
  | cons i l ih =>
    intro acc fs
    rw [List.foldl_cons, List.foldl_cons,
      show taskStep fm entries outDir (acc, fs) i
        = (acc ++ [(i, (write_entity fm entries outDir i fs).1)],
           (write_entity fm entries outDir i fs).2) from rfl]
    exact ih _ _

/-- Every scheduled completion is recorded: the outcome ledger lists exactly the
indices of `order`, in completion order. -/
theorem unzip_outcomes_fst (fm : FaultModel) (entries : List Entry)
    (outDir : List String) (order : List Nat) (fs0 : FS) :
    (unzip_file fm entries outDir order fs0).outcomes.map Prod.fst = order := by
  show ((order.foldl (taskStep fm entries outDir) ([], fs0)).1).map Prod.fst = order
  rw [taskStep_foldl_fst]
  rfl

/-- The final filesystem of a run is the fold of the per-task effects. -/
theorem unzip_fs (fm : FaultModel) (entries : List Entry) (outDir : List String)
    (order : List Nat) (fs0 : FS) :
    (unzip_file fm entries outDir order fs0).fs
      = order.foldl (stepFS fm entries outDir) fs0 :=
  taskStep_foldl_snd fm entries outDir order [] fs0

/- ## Claim theorems for the coordinator -/

/-- C7: `unzip_file` spawns exactly one task per catalog entry, and by the time
it returns every spawned task has completed: whatever the completion order (any
permutation of the entry indices), each entry index has a recorded outcome in
the returned ledger. -/
theorem unzip_file_one_task_per_entry_joined (fm : FaultModel) (entries : List Entry)
    (outDir : List String) (fs0 : FS) (order : List Nat)
    (h : order.Perm (List.range entries.length)) :
    (unzip_file fm entries outDir order fs0).spawned = entries.length ∧
    ∀ i < entries.length,
      i ∈ (unzip_file fm entries outDir order fs0).outcomes.map Prod.fst := by
  refine ⟨rfl, ?_⟩
  intro i hi
  rw [unzip_outcomes_fst]
  exact h.mem_iff.mpr (List.mem_range.mpr hi)

/-- Witness for C7 on a two-entry catalog completed out of order. -/
theorem unzip_file_one_task_per_entry_joined_witness :
    (([1, 0] : List Nat).Perm (List.range 2)) ∧
    ((unzip_file allOk [⟨"a", [1]⟩, ⟨"b/", []⟩] ["o"] [1, 0] FS.empty).spawned = 2 ∧
     ∀ i < 2, i ∈ (unzip_file allOk [⟨"a", [1]⟩, ⟨"b/", []⟩] ["o"]
        [1, 0] FS.empty).outcomes.map Prod.fst) :=
  ⟨by decide,
   unzip_file_one_task_per_entry_joined allOk [⟨"a", [1]⟩, ⟨"b/", []⟩] ["o"]
     FS.empty [1, 0] (by decide)⟩

/-- C2 counterexample: a run in which entry 0's task fails (its content stream
cannot be obtained) records the panic in the task ledger, yet `unzip_file`
returns to its caller exactly what a fully successful run returns — `()` — so
neither the first failure nor any aggregate of failures is surfaced; the
coordinator silently succeeds. -/
theorem unzip_file_silent_success_cex :
    (unzip_file readerFail [⟨"a", [1]⟩] ["o"] [0] FS.empty).outcomes
      = [(0, .panicked "Failed to read ZipEntry")] ∧
    (unzip_file readerFail [⟨"a", [1]⟩] ["o"] [0] FS.empty).ret
      = (unzip_file allOk [⟨"a", [1]⟩] ["o"] [0] FS.empty).ret := by
  exact ⟨by decide, rfl⟩

/-- C2 (amended): a failing entry's task panics and the panic is confined to
that task's join handle: every scheduled task still runs and completes, one
outcome being recorded per scheduled index (in completion order), and the
coordinator returns only after all of them — but it discards the collected
outcomes and returns `()`, surfacing no failure to its caller. -/
theorem unzip_file_isolates_failures_returns_unit (fm : FaultModel)
    (entries : List Entry) (outDir : List String) (order : List Nat) (fs0 : FS) :
    (unzip_file fm entries outDir order fs0).outcomes.map Prod.fst = order ∧
    (unzip_file fm entries outDir order fs0).ret = () :=
  ⟨unzip_outcomes_fst fm entries outDir order fs0, rfl⟩

/-- C10: `write_entity` obtains the entry's content stream before branching on
the directory flag, so even a directory entry — whose extraction reads no
stream bytes — fails its task when the stream cannot be obtained, leaving the
filesystem untouched. -/
theorem write_entity_reader_before_branch (fm : FaultModel) (entries : List Entry)
    (outDir : List String) (index : Nat) (entry : Entry) (fs : FS)
    (h1 : entries.get? index = some entry)
    (h2 : endsWithSlash entry.filename = true)
    (h3 : fm.readerOk index = false) :
    write_entity fm entries outDir index fs = (.panicked "Failed to read ZipEntry", fs) := by
  simp only [write_entity, h1]
  simp [h3]

/-- Witness for C10: a directory entry whose stream acquisition fails. -/
theorem write_entity_reader_before_branch_witness :
    ([(⟨"d/", []⟩ : Entry)].get? 0 = some ⟨"d/", []⟩) ∧
    endsWithSlash ("d/" : String) = true ∧
    readerFail.readerOk 0 = false ∧
    write_entity readerFail [⟨"d/", []⟩] ["o"] 0 FS.empty
      = (.panicked "Failed to read ZipEntry", FS.empty) :=
  ⟨rfl, by decide, rfl,
   write_entity_reader_before_branch readerFail [⟨"d/", []⟩] ["o"] 0 ⟨"d/", []⟩
     FS.empty rfl (by decide) rfl⟩

/-- C4 counterexample: the target path computed by `write_entity` of
`file_muti_extraction.rs` follows the ambient current working directory, not
the output root the task was handed. -/
theorem muti_target_uses_cwd_cex :
    write_entity_muti_target ["home", "user"] ["out"] "a.txt"
      = ["home", "user", "a.txt"] ∧
    write_entity_muti_target ["home", "user"] ["out"] "a.txt"
      ≠ ["out"] ++ sanitize_file_path "a.txt" := by
  decide

/-- C4 (amended): in `rs-zip-index` the target path is the sanitized name joined
under the caller-supplied output root threaded to every task at spawn time,
independent of the ambient working directory; in `file_muti_extraction` the task
instead resolves the target under the ambient current working directory,
ignoring the output root it was passed. -/
theorem target_path_resolution :
    (∀ cwd cwd' out_dir name, write_entity_index_target cwd out_dir name
        = write_entity_index_target cwd' out_dir name) ∧
    (∀ cwd out_dir name, write_entity_index_target cwd out_dir name
        = out_dir ++ sanitize_file_path name) ∧
    (∀ cwd out_dir name, write_entity_muti_target cwd out_dir name
        = cwd ++ sanitize_file_path name) :=
  ⟨fun _ _ _ _ => rfl, fun _ _ _ => rfl, fun _ _ _ => rfl⟩

/-- C3 counterexample: extracting the one-byte entry `9` over a pre-existing
four-byte file `1,2,3,4` completes, but leaves `9,2,3,4` — the open is
create-or-open без truncation, so the old tail survives and the final bytes are
not the entry's stream bytes. -/
theorem write_entity_no_truncate_cex :
    (write_entity allOk [⟨"f.txt", [9]⟩] ["out"] 0
        ⟨fun q => decide (q = ["out"]),
         fun q => if q = ["out", "f.txt"] then some [1, 2, 3, 4] else none⟩).1
      = .ok ∧
    (write_entity allOk [⟨"f.txt", [9]⟩] ["out"] 0
        ⟨fun q => decide (q = ["out"]),
         fun q => if q = ["out", "f.txt"] then some [1, 2, 3, 4] else none⟩).2.files
        ["out", "f.txt"] = some [9, 2, 3, 4] ∧
    some [9, 2, 3, 4] ≠ some ([9] : List Nat) := by
  decide

/-- The bytes at the target path after a completed `fileTask`: the streamed
content followed by the tail of any pre-existing file beyond the stream length. -/
theorem fileTask_ok_files (copyOk : Bool) (content : List Nat) (fs : FS)
    (full : List String) (trailing : Bool)
    (hok : (fileTask copyOk content fs full trailing).1 = .ok) :
    (fileTask copyOk content fs full trailing).2.files full
      = some (content ++ ((fs.files full).getD []).drop content.length) := by
  unfold fileTask at hok ⊢
  split at hok
  · simp at hok
  · split at hok
    · simp at hok
    · split at hok
      · simp at hok
      · split at hok
        · next h0 h1 h2 h3 =>
          rw [if_neg h0, if_neg (by simp [h1]), if_neg h2, if_pos h3]
          show ((ensureParent fs full).2.setFile full _).files full = _
          unfold FS.setFile
          rw [ensureParent_files]
          simp
        · simp at hok

/-- C3 (amended): the target file is opened create-or-open **without**
truncation, and the copy overwrites from the start of the file: when a file
entry's task completes, the bytes at its target path are the entry's stream
bytes followed by whatever tail of a pre-existing file extended beyond the
stream's length. They equal the stream bytes exactly only when no longer file
previously existed at that path. -/
theorem write_entity_file_bytes_no_truncate (fm : FaultModel) (entries : List Entry)
    (outDir : List String) (index : Nat) (entry : Entry) (fs : FS)
    (h1 : entries.get? index = some entry)
    (h2 : endsWithSlash entry.filename = false)
    (hok : (write_entity fm entries outDir index fs).1 = .ok) :
    (write_entity fm entries outDir index fs).2.files
        (outDir ++ sanitize_file_path entry.filename)
      = some (entry.content ++
          ((fs.files (outDir ++ sanitize_file_path entry.filename)).getD []).drop
            entry.content.length) := by
  simp only [write_entity, h1] at hok ⊢
  by_cases hr : fm.readerOk index = false
  · rw [if_pos hr] at hok
    simp at hok
  · rw [if_neg hr] at hok ⊢
    rw [if_neg (by simp [h2])] at hok ⊢
    exact fileTask_ok_files _ _ _ _ _ hok

/-- Witness for C3 (amended) at a concrete completed extraction over a longer
pre-existing file. -/
theorem write_entity_file_bytes_no_truncate_witness :
    ([(⟨"f.txt", [9]⟩ : Entry)].get? 0 = some ⟨"f.txt", [9]⟩) ∧
    endsWithSlash ("f.txt" : String) = false ∧
    (write_entity allOk [⟨"f.txt", [9]⟩] ["out"] 0
        ⟨fun _ => false, fun q => if q = ["out", "f.txt"] then some [1, 2, 3, 4] else none⟩).1
      = .ok ∧
    (write_entity allOk [⟨"f.txt", [9]⟩] ["out"] 0
        ⟨fun _ => false, fun q => if q = ["out", "f.txt"] then some [1, 2, 3, 4] else none⟩).2.files
        (["out"] ++ sanitize_file_path "f.txt")
      = some ([9] ++
          (((⟨fun _ => false, fun q => if q = ["out", "f.txt"] then some [1, 2, 3, 4] else none⟩ : FS).files
              (["out"] ++ sanitize_file_path "f.txt")).getD []).drop ([9] : List Nat).length) :=
  ⟨rfl, by decide, by decide,
   write_entity_file_bytes_no_truncate allOk [⟨"f.txt", [9]⟩] ["out"] 0 ⟨"f.txt", [9]⟩
     ⟨fun _ => false, fun q => if q = ["out", "f.txt"] then some [1, 2, 3, 4] else none⟩
     rfl (by decide) (by decide)⟩

/-- C6 counterexample: sanitization is total, but an entry whose name sanitizes
to the empty path does crash its task when it is a file entry: the empty
filename `""` is a file entry (no trailing slash), its sanitized path is empty,
and `write_entity` panics at the file open. -/
theorem write_entity_empty_path_panics_cex :
    sanitize_file_path "" = [] ∧
    endsWithSlash ("" : String) = false ∧
    (write_entity allOk [⟨"", [0]⟩] ["out"] 0 FS.empty).1
      = .panicked "Failed to create extracted file" := by
  decide

/-- A `fileTask` on a target whose joined path ends in a separator (in
particular, an empty sanitized path) never completes: it panics at the parent
lookup, the parent creation, or the file open. -/
theorem fileTask_trailing_never_ok (copyOk : Bool) (content : List Nat) (fs : FS)
    (full : List String) :
    (fileTask copyOk content fs full true).1 ≠ .ok := by
  unfold fileTask
  split
  · simp
  · split
    · simp
    · rw [if_pos (Or.inl rfl)]
      simp

/-- C6 (amended): sanitization is total (`sanitize_file_path` is a function on
all strings), and a **directory** entry whose name sanitizes to an empty path
completes without crashing on a fresh filesystem; but a **file** entry whose
sanitized path is empty (more generally, whose joined target path ends in a
separator) never completes: its task panics. -/
theorem write_entity_empty_path_behavior :
    (∀ entries outDir index (entry : Entry) (fm : FaultModel) (fs : FS),
      entries.get? index = some entry →
      endsWithSlash entry.filename = false →
      lastSegEmpty entry.filename = true →
      (write_entity fm entries outDir index fs).1 ≠ .ok) ∧
    (∀ entries outDir index (entry : Entry),
      entries.get? index = some entry →
      endsWithSlash entry.filename = true →
      (write_entity allOk entries outDir index FS.empty).1 = .ok) := by
  constructor
  · intro entries outDir index entry fm fs h1 h2 h3
    simp only [write_entity, h1]
    by_cases hr : fm.readerOk index = false
    · rw [if_pos hr]
      simp
    · rw [if_neg hr, if_neg (by simp [h2]), h3]
      exact fileTask_trailing_never_ok _ _ _ _
  · intro entries outDir index entry h1 h2
    simp only [write_entity, h1]
    rw [if_neg (by simp [allOk]), if_pos h2]
    unfold dirTask
    by_cases he : (FS.empty.existsPath (outDir ++ sanitize_file_path entry.filename)
        (lastSegEmpty entry.filename)) = true
    · rw [if_pos he]
    · have hc : ((nonemptyPrefixes (outDir ++ sanitize_file_path entry.filename)).all
          (fun q => !FS.empty.isFile q)) = true := by
        simp [List.all_eq_true, FS.isFile, FS.empty]
      have hc2 : (FS.empty.createDirAll (outDir ++ sanitize_file_path entry.filename)).1
          = true := by
        unfold FS.createDirAll
        rw [if_pos hc]
      rw [if_neg he, if_pos hc2]

/-- Witness for C6 (amended): the file entry named `""` (whose sanitized path is
empty) panics; the directory entry named `/` (whose sanitized path is also
empty) completes on a fresh filesystem. -/
theorem write_entity_empty_path_behavior_witness :
    (([(⟨"", [0]⟩ : Entry)].get? 0 = some ⟨"", [0]⟩) ∧
     endsWithSlash ("" : String) = false ∧
     lastSegEmpty ("" : String) = true ∧
     (write_entity allOk [⟨"", [0]⟩] ["out"] 0 FS.empty).1 ≠ .ok) ∧
    (([(⟨"/", []⟩ : Entry)].get? 0 = some ⟨"/", []⟩) ∧
     endsWithSlash ("/" : String) = true ∧
     (write_entity allOk [⟨"/", []⟩] ["out"] 0 FS.empty).1 = .ok) :=
  ⟨⟨rfl, by decide, by decide,
    write_entity_empty_path_behavior.1 [⟨"", [0]⟩] ["out"] 0 ⟨"", [0]⟩ allOk FS.empty
      rfl (by decide) (by decide)⟩,
   ⟨rfl, by decide,
    write_entity_empty_path_behavior.2 [⟨"/", []⟩] ["out"] 0 ⟨"/", []⟩ rfl (by decide)⟩⟩

/- ## Lemmas towards order independence (C9) -/

/-- `isPrefixOf` agrees with the existence of a completing suffix. -/
theorem isPrefixOf_true_iff {l₁ l₂ : List String} :
    l₁.isPrefixOf l₂ = true ↔ ∃ t, l₁ ++ t = l₂ := by
  induction l₁ generalizing l₂ with
  | nil => simp [List.isPrefixOf]
  | cons a as ih =>
    cases l₂ with
    | nil => simp [List.isPrefixOf]
    | cons b bs =>
      simp only [List.isPrefixOf, Bool.and_eq_true, beq_iff_eq, ih, List.cons_append,
        List.cons.injEq]
      constructor
      · rintro ⟨rfl, t, rfl⟩
        exact ⟨t, rfl, rfl⟩
      · rintro ⟨t, rfl, rfl⟩
        exact ⟨rfl, t, rfl⟩

/-- Membership in `nonemptyPrefixes`. -/
theorem mem_nonemptyPrefixes {q p : List String} :
    q ∈ nonemptyPrefixes p ↔ q ≠ [] ∧ ∃ t, q ++ t = p := by
  unfold nonemptyPrefixes
  simp only [List.mem_map, List.mem_range]
  constructor
  · rintro ⟨k, hk, rfl⟩
    constructor
    · intro h
      have hlen := congrArg List.length h
      rw [List.length_take, List.length_nil] at hlen
      omega
    · exact ⟨p.drop (k + 1), List.take_append_drop _ _⟩
  · rintro ⟨hne, t, rfl⟩
    have hq : 0 < q.length := List.length_pos.mpr hne
    refine ⟨q.length - 1, ?_, ?_⟩
    · simp [List.length_append]
      omega
    · have h1 : q.length - 1 + 1 = q.length := by omega
      rw [h1, List.take_left]

/-- Prefixes compose. -/
theorem prefix_trans {a b c : List String} (h1 : ∃ t, a ++ t = b)
    (h2 : ∃ t, b ++ t = c) : ∃ t, a ++ t = c := by
  obtain ⟨t1, rfl⟩ := h1
  obtain ⟨t2, rfl⟩ := h2
  exact ⟨t1 ++ t2, by simp⟩

/-- Ancestors of a prefix of `p` are ancestors of `p`. -/
theorem nonemptyPrefixes_mono {q p r : List String} (h : ∃ t, q ++ t = p)
    (hr : r ∈ nonemptyPrefixes q) : r ∈ nonemptyPrefixes p := by
  rcases mem_nonemptyPrefixes.mp hr with ⟨hne, hpre⟩
  exact mem_nonemptyPrefixes.mpr ⟨hne, prefix_trans hpre h⟩

/-- The base of an entry is a prefix of its target. -/
theorem baseOf_prefix_full (entries : List Entry) (outDir : List String) (i : Nat) :
    ∃ t, baseOf entries outDir i ++ t = fullOf entries outDir i := by
  unfold baseOf
  split
  · exact ⟨[], List.append_nil _⟩
  · by_cases h : fullOf entries outDir i = []
    · rw [h]
      exact ⟨[], by simp⟩
    · exact ⟨[(fullOf entries outDir i).getLast h], List.dropLast_concat_getLast h⟩

/-- An element of an entry's chain is a non-empty prefix of that entry's target. -/
theorem chainOf_mem {entries : List Entry} {outDir : List String} {i : Nat}
    {q : List String} (h : q ∈ chainOf entries outDir i) :
    q ≠ [] ∧ ∃ t, q ++ t = fullOf entries outDir i := by
  rcases mem_nonemptyPrefixes.mp h with ⟨hne, hpre⟩
  exact ⟨hne, prefix_trans hpre (baseOf_prefix_full entries outDir i)⟩

/-- `List.contains` through membership. -/
theorem contains_true_iff {α : Type} [BEq α] [LawfulBEq α] {l : List α} {a : α} :
    l.contains a = true ↔ a ∈ l := List.elem_iff

/-- Membership in the canonical directory set. -/
theorem canonDirs_true_iff {entries : List Entry} {outDir : List String}
    {S : List Nat} {q : List String} :
    canonDirs entries outDir S q = true ↔ ∃ i ∈ S, q ∈ chainOf entries outDir i := by
  unfold canonDirs
  simp only [List.any_eq_true, contains_true_iff]

/-- What the canonical file map stores: the content of a processed writing
entry at its target path. -/
theorem canonFiles_some {entries : List Entry} {outDir : List String}
    {S : List Nat} {q : List String} {b : List Nat}
    (h : canonFiles entries outDir S q = some b) :
    ∃ i, i ∈ S ∧ i < entries.length ∧ writesAt entries outDir i = true ∧
      fullOf entries outDir i = q ∧ b = (entryAt entries i).content := by
  unfold canonFiles at h
  rcases Option.map_eq_some'.mp h with ⟨i, hfind, rfl⟩
  have hmem := List.mem_range.mp (List.mem_of_find?_eq_some hfind)
  have hp := List.find?_some hfind
  simp only [Bool.and_eq_true, contains_true_iff, decide_eq_true_eq] at hp
  exact ⟨i, hp.1.1, hmem, hp.1.2, hp.2, rfl⟩

/-- A unique satisfier is what `find?` returns. -/
theorem find?_unique_some {l : List Nat} {p : Nat → Bool} {i : Nat}
    (hmem : i ∈ l) (hp : p i = true) (huniq : ∀ j ∈ l, p j = true → j = i) :
    l.find? p = some i := by
  induction l with
  | nil => cases hmem
  | cons a l ih =>
    by_cases ha : p a = true
    · have haa : a = i := huniq a (List.mem_cons_self _ _) ha
      subst haa
      exact List.find?_cons_of_pos _ ha
    · rw [List.find?_cons_of_neg _ (by simpa using ha)]
      have hmem' : i ∈ l := by
        rcases List.mem_cons.mp hmem with h | h
        · exact absurd (h ▸ hp) ha
        · exact h
      exact ih hmem' (fun j hj hpj => huniq j (List.mem_cons_of_mem _ hj) hpj)

/-- `find?` only depends on the predicate's values on the list. -/
theorem find?_congr_pred {l : List Nat} {p p' : Nat → Bool}
    (h : ∀ x ∈ l, p x = p' x) : l.find? p = l.find? p' := by
  induction l with
  | nil => rfl
  | cons a l ih =>
    have ha := h a (List.mem_cons_self _ _)
    by_cases hpa : p a = true
    · rw [List.find?_cons_of_pos _ hpa, List.find?_cons_of_pos _ (ha ▸ hpa)]
    · rw [List.find?_cons_of_neg _ (by simpa using hpa),
        List.find?_cons_of_neg _ (by simp [← ha]; simpa using hpa),
        ih (fun x hx => h x (List.mem_cons_of_mem _ hx))]

/-- Extensionality for filesystem states. -/
theorem FS.ext' {fs1 fs2 : FS} (hd : fs1.dirs = fs2.dirs)
    (hf : fs1.files = fs2.files) : fs1 = fs2 := by
  cases fs1
  cases fs2
  cases hd
  cases hf
  rfl

/-- Projections of the canonical state. -/
theorem canonFS_dirs (entries : List Entry) (outDir : List String) (S : List Nat) :
    (canonFS entries outDir S).dirs = canonDirs entries outDir S := rfl

/-- Projections of the canonical state. -/
theorem canonFS_files (entries : List Entry) (outDir : List String) (S : List Nat) :
    (canonFS entries outDir S).files = canonFiles entries outDir S := rfl

/-- Under `SepTargets`, a writing entry's target is a prefix of no other
entry's target. -/
theorem sep_writes_no_overlap {entries : List Entry} {outDir : List String}
    (hsep : SepTargets entries outDir) {i j : Nat}
    (hi : i < entries.length) (hj : j < entries.length) (hji : j ≠ i)
    (hw : writesAt entries outDir j = true)
    (hpre : ∃ t, fullOf entries outDir j ++ t = fullOf entries outDir i) : False := by
  unfold writesAt at hw
  simp only [Bool.and_eq_true, Bool.not_eq_true'] at hw
  have hne : fullOf entries outDir j ≠ [] := by
    intro hnil
    rw [hnil] at hw
    simp at hw
  have hfalse := hsep j (List.mem_range.mpr hj) i (List.mem_range.mpr hi) hji hw.1.1 hne
  rw [isPrefixOf_true_iff.mpr hpre] at hfalse
  cases hfalse

/-- Under `SepTargets`, the canonical state has no file on any prefix of a
fresh entry's target path. -/
theorem canon_no_conflict (entries : List Entry) (outDir : List String)
    (hsep : SepTargets entries outDir) (S : List Nat) (i : Nat)
    (hi : i < entries.length) (hiS : i ∉ S) (hS : ∀ j ∈ S, j < entries.length)
    (q : List String) (hq : ∃ t, q ++ t = fullOf entries outDir i) :
    canonFiles entries outDir S q = none := by
  cases hcase : canonFiles entries outDir S q with
  | none => rfl
  | some b =>
    exfalso
    rcases canonFiles_some hcase with ⟨j, hjS, hjlen, hw, hfullj, _⟩
    exact sep_writes_no_overlap hsep hi hjlen (fun h => hiS (h ▸ hjS)) hw (hfullj ▸ hq)

/-- Under `SepTargets`, directory creation along (a prefix of) a fresh entry's
target always succeeds on the canonical state, adding exactly that chain. -/
theorem canon_createDirAll_ok (entries : List Entry) (outDir : List String)
    (hsep : SepTargets entries outDir) (S : List Nat) (i : Nat)
    (hi : i < entries.length) (hiS : i ∉ S) (hS : ∀ j ∈ S, j < entries.length)
    (p : List String) (hp : ∃ t, p ++ t = fullOf entries outDir i) :
    ((canonFS entries outDir S).createDirAll p).1 = true ∧
    ((canonFS entries outDir S).createDirAll p).2
      = ⟨fun q => canonDirs entries outDir S q || (nonemptyPrefixes p).contains q,
         canonFiles entries outDir S⟩ := by
  have hall : (nonemptyPrefixes p).all
      (fun q => !(canonFS entries outDir S).isFile q) = true := by
    rw [List.all_eq_true]
    intro q hq
    rcases mem_nonemptyPrefixes.mp hq with ⟨hne, hpre⟩
    have hnone := canon_no_conflict entries outDir hsep S i hi hiS hS q
      (prefix_trans hpre hp)
    simp [FS.isFile, canonFS_files, hnone]
  unfold FS.createDirAll
  rw [if_pos hall]
  exact ⟨rfl, rfl⟩

/-- The canonical directory set is ancestor-closed. -/
theorem canonDirs_closure {entries : List Entry} {outDir : List String}
    {S : List Nat} {p : List String}
    (h : canonDirs entries outDir S p = true) :
    ∀ q ∈ nonemptyPrefixes p, canonDirs entries outDir S q = true := by
  intro q hq
  rcases canonDirs_true_iff.mp h with ⟨j, hjS, hj⟩
  unfold chainOf at hj
  rcases mem_nonemptyPrefixes.mp hj with ⟨_, hpb⟩
  rcases mem_nonemptyPrefixes.mp hq with ⟨hne, hpre⟩
  refine canonDirs_true_iff.mpr ⟨j, hjS, ?_⟩
  unfold chainOf
  exact mem_nonemptyPrefixes.mpr ⟨hne, prefix_trans hpre hpb⟩

/-- The canonical directory set after one more processed entry. -/
theorem canonDirs_cons {entries : List Entry} {outDir : List String}
    {S : List Nat} {i : Nat} {q : List String} :
    canonDirs entries outDir (i :: S) q
      = ((chainOf entries outDir i).contains q || canonDirs entries outDir S q) := by
  unfold canonDirs
  simp [List.any_cons]

/-- A non-writing entry leaves the canonical file map unchanged. -/
theorem canonFiles_cons_not_writing {entries : List Entry} {outDir : List String}
    {S : List Nat} {i : Nat} (h : writesAt entries outDir i = false) :
    canonFiles entries outDir (i :: S) = canonFiles entries outDir S := by
  funext q
  unfold canonFiles
  rw [find?_congr_pred]
  intro x _
  by_cases hxi : x = i
  · subst hxi
    simp [h]
  · simp [List.contains_cons, hxi]

/-- A writing fresh entry updates the canonical file map exactly at its target. -/
theorem canonFiles_cons_writing {entries : List Entry} {outDir : List String}
    {S : List Nat} {i : Nat} (hsep : SepTargets entries outDir)
    (hi : i < entries.length) (hiS : i ∉ S) (hS : ∀ j ∈ S, j < entries.length)
    (hw : writesAt entries outDir i = true) :
    canonFiles entries outDir (i :: S)
      = fun q => if q = fullOf entries outDir i
          then some (entryAt entries i).content
          else canonFiles entries outDir S q := by
  funext q
  by_cases hq : q = fullOf entries outDir i
  · subst hq
    rw [if_pos rfl]
    unfold canonFiles
    rw [find?_unique_some (List.mem_range.mpr hi) ?_ ?_]
    · rfl
    · simp [contains_true_iff, hw]
    · intro j _ hpj
      simp only [Bool.and_eq_true, contains_true_iff, decide_eq_true_eq,
        List.mem_cons] at hpj
      rcases hpj.1.1 with h | h
      · exact h
      · exact absurd (sep_writes_no_overlap hsep hi (hS j h)
          (fun hh => hiS (hh ▸ h)) hpj.1.2 ⟨[], by rw [List.append_nil, hpj.2]⟩) not_false
  · rw [if_neg hq]
    unfold canonFiles
    rw [find?_congr_pred]
    intro x _
    by_cases hxi : x = i
    · subst hxi
      have : decide (fullOf entries outDir x = q) = false := by
        simp
        exact fun h => hq h.symm
      simp [this]
    · simp [List.contains_cons, hxi]

/-- `setFile` leaves the directory set unchanged. -/
theorem setFile_dirs (fs : FS) (p : List String) (b : List Nat) :
    (fs.setFile p b).dirs = fs.dirs := rfl

/-- The file map after `setFile`. -/
theorem setFile_files (fs : FS) (p : List String) (b : List Nat) :
    (fs.setFile p b).files = fun q => if q = p then some b else fs.files q := rfl

/-- Processing a fresh entry on the canonical state of `S` yields the canonical
state of `i :: S`: under `SepTargets`, the task's guards and directory creations
all meet the canonical state benignly, whatever has been processed so far. -/
theorem canon_step (entries : List Entry) (outDir : List String)
    (hsep : SepTargets entries outDir) (S : List Nat) (i : Nat)
    (hi : i < entries.length) (hiS : i ∉ S) (hS : ∀ j ∈ S, j < entries.length) :
    stepFS allOk entries outDir (canonFS entries outDir S) i
      = canonFS entries outDir (i :: S) := by
  obtain ⟨e, he⟩ : ∃ e, entries.get? i = some e :=
    ⟨entries.get ⟨i, hi⟩, List.get?_eq_get hi⟩
  have hea : entryAt entries i = e := by
    unfold entryAt
    rw [he]
    rfl
  have hfl : outDir ++ sanitize_file_path e.filename = fullOf entries outDir i := by
    rw [fullOf, hea]
  have htr : lastSegEmpty e.filename = trailingAt entries i := by rw [trailingAt, hea]
  have hdr : endsWithSlash e.filename = isDirAt entries i := by rw [isDirAt, hea]
  unfold stepFS
  simp only [write_entity, he]
  rw [if_neg (by simp [allOk]), hdr, htr, hfl]
  by_cases hd : isDirAt entries i = true
  · rw [if_pos hd]
    have hw : writesAt entries outDir i = false := by
      unfold writesAt
      rw [hd]
      rfl
    have hchain : chainOf entries outDir i
        = nonemptyPrefixes (fullOf entries outDir i) := by
      unfold chainOf baseOf
      rw [if_pos hd]
    have hisfile : (canonFS entries outDir S).isFile (fullOf entries outDir i)
        = false := by
      unfold FS.isFile
      rw [canonFS_files, canon_no_conflict entries outDir hsep S i hi hiS hS _
        ⟨[], List.append_nil _⟩]
      rfl
    have hex : (canonFS entries outDir S).existsPath (fullOf entries outDir i)
        (trailingAt entries i)
        = canonDirs entries outDir S (fullOf entries outDir i) := by
      unfold FS.existsPath
      rw [hisfile, canonFS_dirs]
      simp
    unfold dirTask
    by_cases hdirs : canonDirs entries outDir S (fullOf entries outDir i) = true
    · rw [if_pos (by rw [hex]; exact hdirs)]
      refine FS.ext' ?_ ?_
      · funext q
        rw [canonFS_dirs, canonFS_dirs, canonDirs_cons]
        by_cases hc : (chainOf entries outDir i).contains q = true
        · have hq : q ∈ nonemptyPrefixes (fullOf entries outDir i) := by
            rw [← hchain]
            exact contains_true_iff.mp hc
          rw [hc, canonDirs_closure hdirs q hq]
          rfl
        · rw [Bool.not_eq_true] at hc
          rw [hc, Bool.false_or]
      · rw [canonFS_files, canonFS_files, canonFiles_cons_not_writing hw]
    · rw [if_neg (by rw [hex]; exact hdirs)]
      have hcd := canon_createDirAll_ok entries outDir hsep S i hi hiS hS
        (fullOf entries outDir i) ⟨[], List.append_nil _⟩
      rw [if_pos hcd.1, hcd.2]
      refine FS.ext' ?_ ?_
      · funext q
        rw [canonFS_dirs, canonDirs_cons, hchain]
        exact Bool.or_comm _ _
      · rw [canonFS_files, canonFiles_cons_not_writing hw]
  · rw [if_neg hd]
    have hdf : isDirAt entries i = false := by
      cases h : isDirAt entries i
      · rfl
      · exact absurd h hd
    unfold fileTask
    have hchain : chainOf entries outDir i
        = nonemptyPrefixes (fullOf entries outDir i).dropLast := by
      unfold chainOf baseOf
      rw [if_neg (by simp [hdf])]
    by_cases hfe : fullOf entries outDir i = []
    · rw [if_pos hfe]
      have hw : writesAt entries outDir i = false := by
        unfold writesAt
        rw [hfe]
        simp
      refine FS.ext' ?_ ?_
      · funext q
        rw [canonFS_dirs, canonFS_dirs, canonDirs_cons, hchain, hfe]
        simp [nonemptyPrefixes]
      · rw [canonFS_files, canonFS_files, canonFiles_cons_not_writing hw]
    · rw [if_neg hfe]
      have hpp : ∃ t, (fullOf entries outDir i).dropLast ++ t
          = fullOf entries outDir i :=
        ⟨[(fullOf entries outDir i).getLast hfe], List.dropLast_concat_getLast hfe⟩
      have hEP : (ensureParent (canonFS entries outDir S)
            (fullOf entries outDir i)).1 = true ∧
          ((ensureParent (canonFS entries outDir S)
            (fullOf entries outDir i)).2.dirs
            = fun q => (chainOf entries outDir i).contains q
                || canonDirs entries outDir S q) ∧
          (ensureParent (canonFS entries outDir S)
            (fullOf entries outDir i)).2.files
            = canonFiles entries outDir S := by
        unfold ensureParent
        by_cases hpd : (canonFS entries outDir S).dirs
            (fullOf entries outDir i).dropLast = true
        · rw [if_pos hpd]
          refine ⟨rfl, ?_, rfl⟩
          funext q
          rw [canonFS_dirs]
          rw [canonFS_dirs] at hpd
          by_cases hc : (chainOf entries outDir i).contains q = true
          · have hq : q ∈ nonemptyPrefixes (fullOf entries outDir i).dropLast := by
              rw [← hchain]
              exact contains_true_iff.mp hc
            rw [hc, canonDirs_closure hpd q hq]
            rfl
          · rw [Bool.not_eq_true] at hc
            rw [hc, Bool.false_or]
        · rw [if_neg hpd]
          have hcd := canon_createDirAll_ok entries outDir hsep S i hi hiS hS
            (fullOf entries outDir i).dropLast hpp
          refine ⟨hcd.1, ?_, ?_⟩
          · rw [hcd.2]
            funext q
            rw [hchain]
            exact Bool.or_comm _ _
          · rw [hcd.2]
      rw [if_neg (by simp [hEP.1])]
      have hnodir : canonDirs entries outDir S (fullOf entries outDir i) = false := by
        cases hx : canonDirs entries outDir S (fullOf entries outDir i)
        · rfl
        · exfalso
          rcases canonDirs_true_iff.mp hx with ⟨j, hjS, hjc⟩
          rcases chainOf_mem hjc with ⟨_, hpre⟩
          have hji : i ≠ j := fun h => hiS (h ▸ hjS)
          have hfalse := hsep i (List.mem_range.mpr hi) j
            (List.mem_range.mpr (hS j hjS)) hji hdf hfe
          rw [isPrefixOf_true_iff.mpr hpre] at hfalse
          cases hfalse
      have hnochain : (chainOf entries outDir i).contains (fullOf entries outDir i)
          = false := by
        cases hx : (chainOf entries outDir i).contains (fullOf entries outDir i)
        · rfl
        · exfalso
          have hmem := contains_true_iff.mp hx
          rw [hchain] at hmem
          rcases mem_nonemptyPrefixes.mp hmem with ⟨_, t, hpre⟩
          have hlen := congrArg List.length hpre
          rw [List.length_append, List.length_dropLast] at hlen
          have hpos : 0 < (fullOf entries outDir i).length := List.length_pos.mpr hfe
          omega
      have hdirfull : (ensureParent (canonFS entries outDir S)
          (fullOf entries outDir i)).2.dirs (fullOf entries outDir i) = false := by
        rw [hEP.2.1]
        show ((chainOf entries outDir i).contains (fullOf entries outDir i)
            || canonDirs entries outDir S (fullOf entries outDir i)) = false
        rw [hnochain, hnodir]
        rfl
      by_cases ht : trailingAt entries i = true
      · rw [if_pos (Or.inl ht)]
        have hw : writesAt entries outDir i = false := by
          unfold writesAt
          rw [ht]
          simp
        refine FS.ext' ?_ ?_
        · rw [hEP.2.1, canonFS_dirs]
          funext q
          rw [canonDirs_cons]
        · rw [hEP.2.2, canonFS_files, canonFiles_cons_not_writing hw]
      · rw [if_neg (by
          intro h
          rcases h with h | h
          · exact ht h
          · rw [hdirfull] at h
            cases h)]
        rw [if_pos (show allOk.copyOk i = true from rfl)]
        have hold : (ensureParent (canonFS entries outDir S)
            (fullOf entries outDir i)).2.files (fullOf entries outDir i) = none := by
          rw [hEP.2.2]
          exact canon_no_conflict entries outDir hsep S i hi hiS hS _
            ⟨[], List.append_nil _⟩
        have htf : trailingAt entries i = false := by
          cases h : trailingAt entries i
          · rfl
          · exact absurd h ht
        have hie : (fullOf entries outDir i).isEmpty = false := by
          cases h : (fullOf entries outDir i).isEmpty
          · rfl
          · exact absurd (List.isEmpty_iff.mp h) hfe
        have hw : writesAt entries outDir i = true := by
          unfold writesAt
          rw [hdf, htf, hie]
          rfl
        rw [hold]
        simp only [Option.getD_none, List.drop_nil, List.append_nil]
        refine FS.ext' ?_ ?_
        · rw [setFile_dirs, hEP.2.1, canonFS_dirs]
          funext q
          rw [canonDirs_cons]
        · rw [setFile_files, hEP.2.2, canonFS_files,
            canonFiles_cons_writing hsep hi hiS hS hw, hea]

/-- The canonical states of membership-equivalent index lists coincide. -/
theorem canonFS_congr {entries : List Entry} {outDir : List String}
    {S₁ S₂ : List Nat} (h : ∀ j, j ∈ S₁ ↔ j ∈ S₂) :
    canonFS entries outDir S₁ = canonFS entries outDir S₂ := by
  refine FS.ext' ?_ ?_
  · funext q
    show canonDirs entries outDir S₁ q = canonDirs entries outDir S₂ q
    rw [Bool.eq_iff_iff, canonDirs_true_iff, canonDirs_true_iff]
    constructor
    · rintro ⟨i, hiS, hic⟩
      exact ⟨i, (h i).mp hiS, hic⟩
    · rintro ⟨i, hiS, hic⟩
      exact ⟨i, (h i).mpr hiS, hic⟩
  · funext q
    show canonFiles entries outDir S₁ q = canonFiles entries outDir S₂ q
    unfold canonFiles
    rw [find?_congr_pred]
    intro x _
    have hc : S₁.contains x = S₂.contains x := by
      rw [Bool.eq_iff_iff, contains_true_iff, contains_true_iff]
      exact h x
    rw [hc]

/-- Folding fresh entries over a canonical state extends it by those entries. -/
theorem canon_fold (entries : List Entry) (outDir : List String)
    (hsep : SepTargets entries outDir) :
    ∀ (l : List Nat) (S : List Nat), l.Nodup →
      (∀ j ∈ l, j < entries.length ∧ j ∉ S) → (∀ j ∈ S, j < entries.length) →
      l.foldl (stepFS allOk entries outDir) (canonFS entries outDir S)
        = canonFS entries outDir (l.reverse ++ S) := by
  intro l
  induction l with
  | nil =>
    intro S _ _ _
    simp
  | cons i l ih =>
    intro S hnd hl hS
    rw [List.foldl_cons,
      canon_step entries outDir hsep S i (hl i (List.mem_cons_self _ _)).1
        (hl i (List.mem_cons_self _ _)).2 hS,
      ih (i :: S) (List.nodup_cons.mp hnd).2 ?_ ?_]
    · refine canonFS_congr ?_
      intro j
      simp only [List.mem_reverse, List.mem_cons, List.mem_append,
        List.reverse_cons, List.mem_singleton]
      tauto
    · intro j hj
      refine ⟨(hl j (List.mem_cons_of_mem _ hj)).1, ?_⟩
      intro hjin
      rcases List.mem_cons.mp hjin with h | h
      · exact (List.nodup_cons.mp hnd).1 (h ▸ hj)
      · exact (hl j (List.mem_cons_of_mem _ hj)).2 h
    · intro j hj
      rcases List.mem_cons.mp hj with h | h
      · exact h ▸ (hl i (List.mem_cons_self _ _)).1
      · exact hS j h

/-- C9 counterexample: two entries both named `a` (the same sanitized target)
with different contents, extracted into the same initially empty output root:
completing entry 0 before entry 1 leaves bytes `9, 2` at the target, the other
order leaves `1, 2`, so the final directory tree depends on the processing
order, refuting order independence for arbitrary catalogs. -/
theorem unzip_file_order_dependent_cex :
    (([0, 1] : List Nat).Perm (List.range 2)) ∧
    (([1, 0] : List Nat).Perm (List.range 2)) ∧
    (unzip_file allOk [⟨"a", [1, 2]⟩, ⟨"a", [9]⟩] ["o"] [0, 1] FS.empty).fs.files
      ["o", "a"] = some [9, 2] ∧
    (unzip_file allOk [⟨"a", [1, 2]⟩, ⟨"a", [9]⟩] ["o"] [1, 0] FS.empty).fs.files
      ["o", "a"] = some [1, 2] ∧
    (some [9, 2] : Option (List Nat)) ≠ some [1, 2] :=
  ⟨by decide, by decide, by decide, by decide, by decide⟩

/-- C9 (amended): for every catalog in which no file entry's non-empty target
path is a prefix of (in particular equal to) another entry's target path
(`SepTargets`), extracting into the same initially empty output root with all
I/O succeeding yields the same final directory tree for every permutation of
the entry-processing order — including file entries processed before their
ancestor directory entry, and ancestors with no directory entry at all. -/
theorem unzip_file_order_independent (entries : List Entry) (outDir : List String)
    (order₁ order₂ : List Nat)
    (h1 : order₁.Perm (List.range entries.length))
    (h2 : order₂.Perm (List.range entries.length))
    (hsep : SepTargets entries outDir) :
    (unzip_file allOk entries outDir order₁ FS.empty).fs
      = (unzip_file allOk entries outDir order₂ FS.empty).fs := by
  have hempty : canonFS entries outDir [] = FS.empty := by
    refine FS.ext' ?_ ?_
    · funext q
      rfl
    · funext q
      show canonFiles entries outDir [] q = none
      unfold canonFiles
      rw [List.find?_eq_none.mpr ?_]
      · rfl
      · intro x _
        simp
  have run : ∀ (order : List Nat), order.Perm (List.range entries.length) →
      (unzip_file allOk entries outDir order FS.empty).fs
        = canonFS entries outDir (order.reverse ++ []) := by
    intro order h
    rw [unzip_fs, ← hempty]
    exact canon_fold entries outDir hsep order [] (h.nodup_iff.mpr (List.nodup_range _))
      (fun j hj => ⟨List.mem_range.mp (h.mem_iff.mp hj), List.not_mem_nil j⟩)
      (fun j hj => absurd hj (List.not_mem_nil j))
  rw [run order₁ h1, run order₂ h2]
  refine canonFS_congr ?_
  intro j
  rw [List.append_nil, List.append_nil, List.mem_reverse, List.mem_reverse,
    h1.mem_iff, h2.mem_iff]

/-- Witness for C9 (amended): a directory entry and a file under it, extracted
in the two orders — the file's task completing before the directory entry's,
and after — produce the same tree. -/
theorem unzip_file_order_independent_witness :
    (([1, 0] : List Nat).Perm (List.range 2)) ∧
    (([0, 1] : List Nat).Perm (List.range 2)) ∧
    SepTargets [⟨"d/", []⟩, ⟨"d/f", [7]⟩] ["o"] ∧
    (unzip_file allOk [⟨"d/", []⟩, ⟨"d/f", [7]⟩] ["o"] [1, 0] FS.empty).fs
      = (unzip_file allOk [⟨"d/", []⟩, ⟨"d/f", [7]⟩] ["o"] [0, 1] FS.empty).fs :=
  ⟨by decide, by decide, by decide,
   unzip_file_order_independent [⟨"d/", []⟩, ⟨"d/f", [7]⟩] ["o"] [1, 0] [0, 1]
     (by decide) (by decide) (by decide)⟩
